import Mathlib

/- Verification of the ecmwf_models core: grid construction and resolution
   inference (ecmwf_models/grid.py) and the download orchestration loop
   (ecmwf_models/era5/download.py).

   Coordinates are modelled exactly as rationals (the source's float
   computations, on the inputs considered here, are exact up to the 3-decimal
   rounding the code itself performs).  Dates are year/month/day triples with
   the Gregorian calendar rules of Python's `calendar.monthrange`; Python's
   `datetime` only ever holds valid dates, which the `Date.Valid` predicate
   makes explicit. -/

/-! ## Grid builder (ecmwf_models/grid.py) -/

/-- One wrap step of `lon[lon > 180.0] = lon[lon > 180.0] - 360`:
values strictly greater than 180 are decreased by 360, once. -/
def wrapLon (x : ℚ) : ℚ := if 180 < x then x - 360 else x

/-- `np.arange(start, stop, step)`: the values `start + k*step` for
`0 ≤ k < ⌈(stop - start)/step⌉`, in exact arithmetic. -/
def npArange (start stop step : ℚ) : List ℚ :=
  (List.range (⌈(stop - start) / step⌉).toNat).map (fun k : ℕ => start + (k : ℚ) * step)

/-- Round to the nearest integer, ties to even, as `np.round` does. -/
def roundHalfEven (q : ℚ) : ℤ :=
  if q - ⌊q⌋ < 1/2 then ⌊q⌋
  else if 1/2 < q - ⌊q⌋ then ⌊q⌋ + 1
  else if ⌊q⌋ % 2 = 0 then ⌊q⌋ else ⌊q⌋ + 1

/-- `np.round(x, 3)` in exact arithmetic. -/
def round3 (q : ℚ) : ℚ := (roundHalfEven (q * 1000) : ℚ) / 1000

/-- Insert a value into a strictly ascending list, keeping it strictly
ascending (duplicates are dropped); the sorting step of `np.unique`. -/
def insertUnique (x : ℚ) : List ℚ → List ℚ
  | [] => [x]
  | y :: ys =>
    if x < y then x :: y :: ys
    else if x = y then y :: ys
    else y :: insertUnique x ys

/-- `np.unique`: the distinct values, sorted ascending (characterized by
`npUnique_pairwise`, `npUnique_toFinset` and `npUnique_eq` below). -/
def npUnique (l : List ℚ) : List ℚ := l.foldr insertUnique []

/-- The rounded absolute deltas `np.round(abs(abs(j) - abs(i)), 3)` taken over
consecutive pairs `zip(u[:-1], u[1:])` of a coordinate axis. -/
def deltas : List ℚ → List ℚ
  | a :: b :: rest => round3 |(|b| - |a|)| :: deltas (b :: rest)
  | _ => []

/-- One axis of `get_grid_resolution`: all rounded deltas must equal the first
one (`ValueError: Grid not regular` otherwise, modelled as `none`); an axis
with fewer than two distinct values indexes into an empty delta array
(`IndexError`, also `none`). -/
def resOf (u : List ℚ) : Option ℚ :=
  match deltas u with
  | [] => none
  | d :: rest => if rest.all (fun x => decide (x = d)) then some d else none

/-- `get_grid_resolution(lats, lons)` from grid.py: `np.unique` both axes,
check each axis for a common rounded delta, return `(lat_res, lon_res)`. -/
def get_grid_resolution (lats lons : List ℚ) : Option (ℚ × ℚ) :=
  match resOf (npUnique lats), resOf (npUnique lons) with
  | some lat_res, some lon_res => some (lat_res, lon_res)
  | _, _ => none

/-- First output plane of `np.meshgrid(xs, ys)` (x repeated per row). -/
def meshgridX (xs : List ℚ) (ys : List ℚ) : List (List ℚ) := ys.map (fun _ => xs)

/-- Second output plane of `np.meshgrid(xs, ys)` (each row constant in y). -/
def meshgridY (xs : List ℚ) (ys : List ℚ) : List (List ℚ) :=
  ys.map (fun y => xs.map (fun _ => y))

/-- `ERA_RegularImgGrid(res_lat, res_lon)`: global raster from the two
`np.arange` calls, longitudes above 180 wrapped, meshed and flattened.  The
resulting grid is modelled by its flattened coordinate arrays
`(activearrlon, activearrlat)`, exactly the arrays handed to `BasicGrid`
(the `BasicGrid`/`to_cell_grid` wrapper from the external pygeogrids package
adds no coordinate information). -/
def ERA_RegularImgGrid (res_lat res_lon : ℚ) : List ℚ × List ℚ :=
  let lon := (npArange 0 (360 - res_lon / 2) res_lon).map wrapLon
  let lat := npArange 90 (-90 - res_lat / 2) (-res_lat)
  ((meshgridX lon lat).flatten, (meshgridY lon lat).flatten)

/-- `ERA_IrregularImgGrid(lons, lats)` including its effect on the caller's
arrays: the fancy-index assignment `lons[lons > 180] -= 360` updates the
caller-visible `lons` buffer in place, so the call is modelled as returning
the final contents of both input arrays together with the flattened grid. -/
def ERA_IrregularImgGrid_call (lons lats : List (List ℚ)) :
    (List (List ℚ) × List (List ℚ)) × (List ℚ × List ℚ) :=
  let lons2 := lons.map (fun row => row.map wrapLon)
  ((lons2, lats), (lons2.flatten, lats.flatten))

/-- The grid value returned by `ERA_IrregularImgGrid`, as flattened
`(lons, lats)` coordinate arrays. -/
def ERA_IrregularImgGrid (lons lats : List (List ℚ)) : List ℚ × List ℚ :=
  (ERA_IrregularImgGrid_call lons lats).2

/-- Ascending arithmetic ladder `[a*r, (a+1)*r, ...]` of length `N`; the shape
of every regular coordinate axis after `np.unique`. -/
def arithList (a : ℤ) (r : ℚ) : ℕ → List ℚ
  | 0 => []
  | N + 1 => (a : ℚ) * r :: arithList (a + 1) r N

/-! ## Dates and the chunking loop (ecmwf_models/era5/download.py) -/

/-- A `datetime.datetime` at day granularity. -/
structure Date where
  year : ℕ
  month : ℕ
  day : ℕ
deriving DecidableEq

/-- Lexicographic comparison of dates, as Python compares datetimes. -/
def Date.le (a b : Date) : Prop :=
  a.year < b.year ∨ (a.year = b.year ∧
    (a.month < b.month ∨ (a.month = b.month ∧ a.day ≤ b.day)))

instance : LE Date := ⟨Date.le⟩

instance (a b : Date) : Decidable (a ≤ b) :=
  inferInstanceAs (Decidable (a.year < b.year ∨ (a.year = b.year ∧
    (a.month < b.month ∨ (a.month = b.month ∧ a.day ≤ b.day)))))

/-- `calendar.isleap`. -/
def isLeap (y : ℕ) : Bool := y % 4 == 0 && (y % 100 != 0 || y % 400 == 0)

/-- `calendar.monthrange(y, m)[1]`: the number of days of month `m`. -/
def daysInMonth (y m : ℕ) : ℕ :=
  if m = 2 then (if isLeap y then 29 else 28)
  else if m = 4 ∨ m = 6 ∨ m = 9 ∨ m = 11 then 30
  else if 1 ≤ m ∧ m ≤ 12 then 31
  else 0

/-- The invariant every Python `datetime` satisfies by construction. -/
def Date.Valid (d : Date) : Prop :=
  1 ≤ d.month ∧ d.month ≤ 12 ∧ 1 ≤ d.day ∧ d.day ≤ daysInMonth d.year d.month

instance (d : Date) : Decidable d.Valid := inferInstanceAs (Decidable (_ ∧ _))

/-- `curr_end = datetime(y, m, d)` of one loop iteration of
`download_and_move`: `d = enddate.day` if `enddate` falls in `curr_start`'s
year and month, else the last day of `curr_start`'s month. -/
def chunkEnd (s e : Date) : Date :=
  if e.year = s.year ∧ e.month = s.month then ⟨s.year, s.month, e.day⟩
  else ⟨s.year, s.month, daysInMonth s.year s.month⟩

/-- `d + timedelta(days=1)`. -/
def nextDay (d : Date) : Date :=
  if d.day < daysInMonth d.year d.month then ⟨d.year, d.month, d.day + 1⟩
  else if d.month < 12 then ⟨d.year, d.month + 1, 1⟩
  else ⟨d.year + 1, 1, 1⟩

/-- A strictly monotone day ordinal (months have at most 31 < 50 days and
years at most 12*50 + 31 < 1000 ordinal units); used only to bound the number
of iterations of the chunking loop. -/
def dateOrd (d : Date) : ℕ := d.year * 1000 + d.month * 50 + d.day

/-- The chunking loop of `download_and_move`, fuelled: one iteration per
`fuel` unit, looping `while curr_start <= enddate` and advancing
`curr_start = curr_end + timedelta(days=1)`.  Each iteration strictly
increases `dateOrd`, so fuel `dateOrd e + 1 - dateOrd s` is enough to run the
loop to completion (`chunksGo_congr` below); the `Valid` conjuncts in the
guard record the datetime invariant under which the Python loop runs. -/
def chunksGo : ℕ → Date → Date → List (Date × Date)
  | 0, _, _ => []
  | fuel + 1, s, e =>
    if s.Valid ∧ e.Valid ∧ s ≤ e then
      (s, chunkEnd s e) :: chunksGo fuel (nextDay (chunkEnd s e)) e
    else []

/-- The list of `(curr_start, curr_end)` chunks that `download_and_move`
iterates over for the range `[s, e]`. -/
def chunks (s e : Date) : List (Date × Date) :=
  chunksGo (dateOrd e + 1 - dateOrd s) s e

/-- Number of chunks of `chunks s e` that contain the day `x`. -/
def countChunks (x : Date) (cs : List (Date × Date)) : ℕ :=
  cs.countP (fun c => decide (c.1 ≤ x ∧ x ≤ c.2))

/-! ## Download orchestration state (ecmwf_models/era5/download.py)

The observable effects of `download_and_move` are modelled by an explicit
state record; the remote client (`cdsapi`), filesystem and archive extractor
are the external collaborators whose invocations the state counts. -/

/-- Effect state of one `download_and_move` run. -/
structure DLState where
  /-- `cdsapi.Client()` was constructed. -/
  clientCreated : Bool := false
  /-- Number of `c.retrieve(...)` invocations. -/
  retrieveCalls : ℕ := 0
  /-- Number of `os.remove(dl_file)` invocations. -/
  removeCalls : ℕ := 0
  /-- Number of archive-extractor invocations
  (`save_gribs_from_grib` / `save_ncs_from_nc`). -/
  extractCalls : ℕ := 0
  /-- Number of files written outside the staging directory. -/
  archiveWrites : ℕ := 0
  /-- The current chunk's staging file `dl_file` exists. -/
  stagingFile : Bool := false
  /-- The staging directory `temp_downloaded` exists. -/
  stagingDir : Bool := false
deriving DecidableEq

/-- `download_era5(c, ..., dry_run)`: with `dry_run` it does nothing and
returns `True`; otherwise it issues exactly one `c.retrieve` into the staging
file and returns `True`, unless the retrieval raises (`raises = true`), in
which case the partially written staging file remains (spec: "any exception
during retrieval causes deletion of the partially-written staging file").
The returned `Bool` is `finished` (`false` models the exception). -/
def download_era5 (dryRun raises : Bool) (st : DLState) : Bool × DLState :=
  if dryRun then (true, st)
  else if raises then
    (false, { st with retrieveCalls := st.retrieveCalls + 1, stagingFile := true })
  else
    (true, { st with retrieveCalls := st.retrieveCalls + 1, stagingFile := true })

/-- The per-chunk retry loop `while (not finished) and (i < 5)`, structurally
recursing on the remaining tries `fuel = 5 - i`; `fails i` says whether the
`i`-th attempt raises.  On an exception the staging file is removed
(`os.remove`) and the loop retries immediately. -/
def retryGo (dryRun : Bool) (fails : ℕ → Bool) : ℕ → ℕ → DLState → Bool × DLState
  | 0, _, st => (false, st)
  | fuel + 1, i, st =>
    match download_era5 dryRun (fails i) st with
    | (true, st2) => (true, st2)
    | (false, st2) =>
      retryGo dryRun fails fuel (i + 1)
        { st2 with removeCalls := st2.removeCalls + 1, stagingFile := false }

/-- The retry loop entered with `finished, i = False, 0` and the bound
`i < 5`: at most 5 attempts. -/
def retryLoop (dryRun : Bool) (fails : ℕ → Bool) (st : DLState) : Bool × DLState :=
  retryGo dryRun fails 5 0 st

/-- Modelled from the spec: the archive extractor (`save_gribs_from_grib` /
`save_ncs_from_nc` from ecmwf_models/utils.py, which is not part of the
sources here) is the external collaborator
`extract(staged_file, archive_root, product_name)`; it splits the staged file
into per-date/per-parameter files under the archive root, so it writes
non-staging files exactly when a staged file is present. -/
def save_from_staged (st : DLState) : DLState :=
  { st with extractCalls := st.extractCalls + 1,
            archiveWrites := st.archiveWrites + (if st.stagingFile then 1 else 0) }

/-- One iteration of the chunk loop body of `download_and_move`: create the
staging directory (the chunk's `dl_file` does not exist yet), run the retry
loop, hand the staging path to the extractor unconditionally, and delete the
staging directory unless `keep_original`. -/
def processChunk (dryRun keepOriginal : Bool) (fails : ℕ → Bool) (st : DLState) : DLState :=
  let stA := { st with stagingDir := true, stagingFile := false }
  let r := retryLoop dryRun fails stA
  let stB := save_from_staged r.2
  if keepOriginal then stB
  else { stB with stagingDir := false, stagingFile := false }

/-- `download_and_move`: build the client unless `dry_run`, then run the
chunk body once per chunk of the date range; `failsAt c i` says whether
attempt `i` of chunk `c` raises. -/
def download_and_move (dryRun keepOriginal : Bool) (s e : Date)
    (failsAt : ℕ → ℕ → Bool) : DLState :=
  (List.range (chunks s e).length).foldl
    (fun st idx => processChunk dryRun keepOriginal (failsAt idx) st)
    { clientCreated := !dryRun }

/-! ## Lemmas: retry loop and orchestration effects -/

lemma retryGo_extractCalls (dryRun : Bool) (fails : ℕ → Bool) :
    ∀ (fuel i : ℕ) (st : DLState),
      (retryGo dryRun fails fuel i st).2.extractCalls = st.extractCalls := by
  intro fuel
  induction fuel with
  | zero => intro i st; simp [retryGo]
  | succ fuel ih =>
    intro i st
    cases hd : dryRun <;> subst hd <;> by_cases hf : fails i = true <;>
      simp [retryGo, download_era5, hf, ih]

lemma retryGo_archiveWrites (dryRun : Bool) (fails : ℕ → Bool) :
    ∀ (fuel i : ℕ) (st : DLState),
      (retryGo dryRun fails fuel i st).2.archiveWrites = st.archiveWrites := by
  intro fuel
  induction fuel with
  | zero => intro i st; simp [retryGo]
  | succ fuel ih =>
    intro i st
    cases hd : dryRun <;> subst hd <;> by_cases hf : fails i = true <;>
      simp [retryGo, download_era5, hf, ih]

lemma retryGo_clientCreated (dryRun : Bool) (fails : ℕ → Bool) :
    ∀ (fuel i : ℕ) (st : DLState),
      (retryGo dryRun fails fuel i st).2.clientCreated = st.clientCreated := by
  intro fuel
  induction fuel with
  | zero => intro i st; simp [retryGo]
  | succ fuel ih =>
    intro i st
    cases hd : dryRun <;> subst hd <;> by_cases hf : fails i = true <;>
      simp [retryGo, download_era5, hf, ih]

lemma retryGo_dry (fails : ℕ → Bool) (fuel i : ℕ) (st : DLState) (h : 0 < fuel) :
    retryGo true fails fuel i st = (true, st) := by
  cases fuel with
  | zero => omega
  | succ fuel => simp [retryGo, download_era5]

lemma retryGo_retrieve_le (fails : ℕ → Bool) :
    ∀ (fuel i : ℕ) (st : DLState),
      (retryGo false fails fuel i st).2.retrieveCalls ≤ st.retrieveCalls + fuel := by
  intro fuel
  induction fuel with
  | zero => intro i st; simp [retryGo]
  | succ fuel ih =>
    intro i st
    by_cases hf : fails i = true
    · have h2 := ih (i + 1) ({ st with retrieveCalls := st.retrieveCalls + 1, removeCalls := st.removeCalls + 1, stagingFile := false })
      simp only [retryGo, download_era5, Bool.false_eq_true, if_false, hf, if_true]
      simp at h2 ⊢
      omega
    · simp [retryGo, download_era5, hf]

lemma retryGo_remove_eq (fails : ℕ → Bool) :
    ∀ (fuel i : ℕ) (st : DLState),
      (retryGo false fails fuel i st).2.removeCalls + st.retrieveCalls
        + (if (retryGo false fails fuel i st).1 then 1 else 0)
      = st.removeCalls + (retryGo false fails fuel i st).2.retrieveCalls := by
  intro fuel
  induction fuel with
  | zero => intro i st; simp [retryGo]
  | succ fuel ih =>
    intro i st
    by_cases hf : fails i = true
    · have h2 := ih (i + 1) ({ st with retrieveCalls := st.retrieveCalls + 1, removeCalls := st.removeCalls + 1, stagingFile := false })
      simp only [retryGo, download_era5, Bool.false_eq_true, if_false, hf, if_true]
      simp at h2 ⊢
      omega
    · simp [retryGo, download_era5, hf]
      omega

lemma retryGo_allfail (fails : ℕ → Bool) :
    ∀ (fuel i : ℕ) (st : DLState), (∀ j, i ≤ j → j < i + fuel → fails j = true) →
      retryGo false fails fuel i st =
        (false, { st with retrieveCalls := st.retrieveCalls + fuel,
                          removeCalls := st.removeCalls + fuel,
                          stagingFile := if fuel = 0 then st.stagingFile else false }) := by
  intro fuel
  induction fuel with
  | zero => intro i st _; simp [retryGo]
  | succ fuel ih =>
    intro i st h
    have hfi : fails i = true := h i (Nat.le_refl i) (by omega)
    simp only [retryGo, download_era5, Bool.false_eq_true, if_false, hfi, if_true]
    rw [ih (i + 1) _ (fun j h1 h2 => h j (by omega) (by omega))]
    cases st
    simp
    omega

lemma retryLoop_retrieve_le (fails : ℕ → Bool) (st : DLState) :
    (retryLoop false fails st).2.retrieveCalls ≤ st.retrieveCalls + 5 :=
  retryGo_retrieve_le fails 5 0 st

lemma processChunk_extractCalls (dryRun keepOriginal : Bool) (fails : ℕ → Bool)
    (st : DLState) :
    (processChunk dryRun keepOriginal fails st).extractCalls = st.extractCalls + 1 := by
  unfold processChunk retryLoop save_from_staged
  have h := retryGo_extractCalls dryRun fails 5 0
    { st with stagingDir := true, stagingFile := false }
  split <;> simp [h]

lemma processChunk_dry (keepOriginal : Bool) (fails : ℕ → Bool) (st : DLState) :
    (processChunk true keepOriginal fails st).clientCreated = st.clientCreated
    ∧ (processChunk true keepOriginal fails st).retrieveCalls = st.retrieveCalls
    ∧ (processChunk true keepOriginal fails st).archiveWrites = st.archiveWrites := by
  have h5 : retryGo true fails 5 0 { st with stagingDir := true, stagingFile := false }
      = (true, { st with stagingDir := true, stagingFile := false }) :=
    retryGo_dry fails 5 0 _ (by omega)
  unfold processChunk retryLoop save_from_staged
  simp only [h5]
  split <;> simp

lemma download_loop_extract (dryRun keepOriginal : Bool) (failsAt : ℕ → ℕ → Bool) :
    ∀ (l : List ℕ) (st : DLState),
      (l.foldl (fun st idx => processChunk dryRun keepOriginal (failsAt idx) st) st).extractCalls
        = st.extractCalls + l.length := by
  intro l
  induction l with
  | nil => intro st; simp
  | cons a l ih =>
    intro st
    simp only [List.foldl_cons, ih, processChunk_extractCalls, List.length_cons]
    omega

lemma download_loop_dry (keepOriginal : Bool) (failsAt : ℕ → ℕ → Bool) :
    ∀ (l : List ℕ) (st : DLState),
      (l.foldl (fun st idx => processChunk true keepOriginal (failsAt idx) st) st).clientCreated
          = st.clientCreated
      ∧ (l.foldl (fun st idx => processChunk true keepOriginal (failsAt idx) st) st).retrieveCalls
          = st.retrieveCalls
      ∧ (l.foldl (fun st idx => processChunk true keepOriginal (failsAt idx) st) st).archiveWrites
          = st.archiveWrites := by
  intro l
  induction l with
  | nil => intro st; simp
  | cons a l ih =>
    intro st
    have hd := processChunk_dry keepOriginal (failsAt a) st
    have ht := ih (processChunk true keepOriginal (failsAt a) st)
    simp only [List.foldl_cons]
    exact ⟨ht.1.trans hd.1, ht.2.1.trans hd.2.1, ht.2.2.trans hd.2.2⟩

/-- C2: per chunk, `download_and_move` makes at most 5 retrieval attempts;
every exception deletes the staging file and retries immediately (one
`os.remove` per failed attempt, no other effect in between); if all 5
attempts fail the loop ends with `finished = False`, having removed the
staging file 5 times, and the chunk body still proceeds (to extraction)
without raising. -/
theorem era5_retry_policy (fails : ℕ → Bool) (st : DLState) :
    (retryLoop false fails st).2.retrieveCalls ≤ st.retrieveCalls + 5
    ∧ (retryLoop false fails st).2.removeCalls + st.retrieveCalls
        + (if (retryLoop false fails st).1 then 1 else 0)
      = st.removeCalls + (retryLoop false fails st).2.retrieveCalls
    ∧ ((∀ j, j < 5 → fails j = true) →
        retryLoop false fails st
          = (false, { st with retrieveCalls := st.retrieveCalls + 5,
                              removeCalls := st.removeCalls + 5,
                              stagingFile := false }))
    ∧ (∀ ko : Bool, (processChunk false ko fails st).extractCalls = st.extractCalls + 1) := by
  refine ⟨retryGo_retrieve_le fails 5 0 st, retryGo_remove_eq fails 5 0 st, ?_,
    fun ko => processChunk_extractCalls _ _ _ _⟩
  intro h
  have h2 := retryGo_allfail fails 5 0 st (fun j h1 h2 => h j (by omega))
  simpa using h2

/-- Witness for C2 at the concrete schedule where every attempt raises. -/
theorem era5_retry_policy_witness :
    retryLoop false (fun _ => true) {}
      = (false, { ({} : DLState) with retrieveCalls := ({} : DLState).retrieveCalls + 5,
                                      removeCalls := ({} : DLState).removeCalls + 5,
                                      stagingFile := false }) :=
  (era5_retry_policy (fun _ => true) {}).2.2.1 (fun _ _ => rfl)

/-- C4: with `dry_run=True`, `download_and_move` never constructs a
`cdsapi.Client`, never invokes `c.retrieve`, and completes with no file
written outside the staging directory. -/
theorem era5_dry_run_no_client (keepOriginal : Bool) (s e : Date)
    (failsAt : ℕ → ℕ → Bool) :
    (download_and_move true keepOriginal s e failsAt).clientCreated = false
    ∧ (download_and_move true keepOriginal s e failsAt).retrieveCalls = 0
    ∧ (download_and_move true keepOriginal s e failsAt).archiveWrites = 0 := by
  have h := download_loop_dry keepOriginal failsAt
    (List.range (chunks s e).length) { clientCreated := !true }
  unfold download_and_move
  simpa using h

/-- C6: a chunk whose retrieval raises on attempts 1 to 4 and succeeds on
attempt 5 makes exactly 5 retrieval calls and exactly one extraction call,
and with `keep_original=False` neither the staging file nor the staging
directory remains afterwards. -/
theorem era5_fifth_attempt_single_extraction :
    (processChunk false false (fun i => decide (i < 4)) {}).extractCalls = 1
    ∧ (processChunk false false (fun i => decide (i < 4)) {}).stagingFile = false
    ∧ (processChunk false false (fun i => decide (i < 4)) {}).stagingDir = false
    ∧ (processChunk false false (fun i => decide (i < 4)) {}).retrieveCalls = 5 := by
  decide

/-- C9: the archive extractor is invoked exactly once per chunk,
unconditionally — also when every retrieval attempt failed and in dry-run —
so a whole `download_and_move` run performs one extraction call per chunk of
the date range. -/
theorem era5_unconditional_extraction (dryRun keepOriginal : Bool)
    (failsAt : ℕ → ℕ → Bool) (g : ℕ → Bool) (s e : Date) (st : DLState) :
    (processChunk dryRun keepOriginal g st).extractCalls = st.extractCalls + 1
    ∧ (download_and_move dryRun keepOriginal s e failsAt).extractCalls
        = (chunks s e).length := by
  refine ⟨processChunk_extractCalls _ _ _ _, ?_⟩
  unfold download_and_move
  rw [download_loop_extract]
  simp

/-- C5: building the irregular grid from `np.meshgrid` of the regular
coordinate axes gives exactly the regular grid: the two construction paths
agree on regular input (the wrap commutes with meshing/flattening). -/
theorem irregular_regular_grid_agree (res_lat res_lon : ℚ) :
    ERA_IrregularImgGrid
        (meshgridX (npArange 0 (360 - res_lon / 2) res_lon)
                   (npArange 90 (-90 - res_lat / 2) (-res_lat)))
        (meshgridY (npArange 0 (360 - res_lon / 2) res_lon)
                   (npArange 90 (-90 - res_lat / 2) (-res_lat)))
      = ERA_RegularImgGrid res_lat res_lon := by
  unfold ERA_IrregularImgGrid ERA_IrregularImgGrid_call ERA_RegularImgGrid
    meshgridX meshgridY
  simp [List.map_map, Function.comp_def]

/-- C10: `ERA_IrregularImgGrid` updates the caller's `lons` array in place:
afterwards every entry that was strictly above 180 has been decreased by 360,
every other entry is unchanged, and `lats` is untouched. -/
theorem irregular_grid_mutates_lons (lons lats : List (List ℚ)) :
    List.Forall₂ (List.Forall₂ (fun a b => (180 < a → b = a - 360) ∧ (¬ 180 < a → b = a)))
      lons (ERA_IrregularImgGrid_call lons lats).1.1
    ∧ (ERA_IrregularImgGrid_call lons lats).1.2 = lats := by
  constructor
  · have hrow : ∀ row : List ℚ,
        List.Forall₂ (fun a b => (180 < a → b = a - 360) ∧ (¬ 180 < a → b = a))
          row (row.map wrapLon) := by
      intro row
      induction row with
      | nil => exact List.Forall₂.nil
      | cons x xs ih =>
        exact List.Forall₂.cons
          ⟨fun h => by simp [wrapLon, h], fun h => by simp [wrapLon, h]⟩ ih
    show List.Forall₂ _ lons (lons.map (fun row => row.map wrapLon))
    induction lons with
    | nil => exact List.Forall₂.nil
    | cons r rs ih => exact List.Forall₂.cons (hrow r) ih
  · rfl

/-! ## Lemmas: regular axes and resolution inference -/

lemma roundHalfEven_intCast (z : ℤ) : roundHalfEven (z : ℚ) = z := by
  unfold roundHalfEven
  rw [Int.floor_intCast]
  norm_num

lemma round3_eq_self {r : ℚ} (hz : ∃ z : ℤ, r * 1000 = (z : ℚ)) : round3 r = r := by
  obtain ⟨z, hzz⟩ := hz
  unfold round3
  rw [hzz, roundHalfEven_intCast]
  have h1000 : (1000 : ℚ) ≠ 0 := by norm_num
  field_simp
  linarith [hzz]

lemma abs_abs_delta (a : ℤ) (r : ℚ) (hr : 0 < r) :
    |(|((a : ℚ) + 1) * r| - |(a : ℚ) * r|)| = r := by
  rcases le_or_lt 0 a with ha | ha
  · have ha0 : (0 : ℚ) ≤ (a : ℚ) := by exact_mod_cast ha
    have h1 : (0 : ℚ) ≤ (a : ℚ) * r := mul_nonneg ha0 hr.le
    have h2 : (0 : ℚ) ≤ ((a : ℚ) + 1) * r := mul_nonneg (by linarith) hr.le
    rw [abs_of_nonneg h1, abs_of_nonneg h2]
    have h3 : ((a : ℚ) + 1) * r - (a : ℚ) * r = r := by ring
    rw [h3, abs_of_nonneg hr.le]
  · have haz : a ≤ -1 := by omega
    have ha1 : ((a : ℚ) + 1) ≤ 0 := by
      have : (a : ℚ) ≤ -1 := by exact_mod_cast haz
      linarith
    have h1 : (a : ℚ) * r ≤ 0 := mul_nonpos_of_nonpos_of_nonneg (by linarith) hr.le
    have h2 : ((a : ℚ) + 1) * r ≤ 0 := mul_nonpos_of_nonpos_of_nonneg ha1 hr.le
    rw [abs_of_nonpos h1, abs_of_nonpos h2]
    have h3 : -(((a : ℚ) + 1) * r) - -((a : ℚ) * r) = -r := by ring
    rw [h3, abs_neg, abs_of_nonneg hr.le]

lemma arithList_eq_map (r : ℚ) : ∀ (N : ℕ) (a : ℤ),
    arithList a r N = (List.range N).map (fun i : ℕ => ((a + (i : ℤ) : ℤ) : ℚ) * r) := by
  intro N
  induction N with
  | zero => intro a; simp [arithList]
  | succ N ih =>
    intro a
    rw [show arithList a r (N + 1) = (a : ℚ) * r :: arithList (a + 1) r N from rfl,
      ih (a + 1), List.range_succ_eq_map, List.map_cons, List.map_map]
    congr 1
    · push_cast
      ring
    · apply List.map_congr_left
      intro i _
      simp only [Function.comp_apply]
      push_cast
      ring

lemma arithList_length (a : ℤ) (r : ℚ) (N : ℕ) : (arithList a r N).length = N := by
  rw [arithList_eq_map]
  simp

lemma arithList_pairwise (a : ℤ) {r : ℚ} (hr : 0 < r) (N : ℕ) :
    (arithList a r N).Pairwise (· < ·) := by
  rw [arithList_eq_map, List.pairwise_map]
  refine (List.pairwise_lt_range N).imp ?_
  intro i j hij
  have hcast : ((a + (i : ℤ) : ℤ) : ℚ) < ((a + (j : ℤ) : ℤ) : ℚ) := by
    have : (a + (i : ℤ)) < (a + (j : ℤ)) := by omega
    exact_mod_cast this
  exact mul_lt_mul_of_pos_right hcast hr

lemma deltas_arithList {r : ℚ} (hr : 0 < r) (hz : ∃ z : ℤ, r * 1000 = (z : ℚ)) :
    ∀ (N : ℕ) (a : ℤ), deltas (arithList a r (N + 1)) = List.replicate N r := by
  intro N
  induction N with
  | zero => intro a; rfl
  | succ N ih =>
    intro a
    rw [show arithList a r (N + 1 + 1)
        = (a : ℚ) * r :: ((a + 1 : ℤ) : ℚ) * r :: arithList (a + 1 + 1) r N from rfl]
    rw [show deltas ((a : ℚ) * r :: ((a + 1 : ℤ) : ℚ) * r :: arithList (a + 1 + 1) r N)
        = round3 |(|((a + 1 : ℤ) : ℚ) * r| - |(a : ℚ) * r|)|
          :: deltas (((a + 1 : ℤ) : ℚ) * r :: arithList (a + 1 + 1) r N) from rfl]
    have habs : |(|((a + 1 : ℤ) : ℚ) * r| - |(a : ℚ) * r|)| = r := by
      have h2 : ((a + 1 : ℤ) : ℚ) = (a : ℚ) + 1 := by push_cast; ring
      rw [h2]
      exact abs_abs_delta a r hr
    rw [habs, round3_eq_self hz]
    have htail := ih (a + 1)
    rw [show arithList (a + 1) r (N + 1)
        = ((a + 1 : ℤ) : ℚ) * r :: arithList (a + 1 + 1) r N from rfl] at htail
    rw [htail, List.replicate_succ]

lemma resOf_arithList {r : ℚ} (hr : 0 < r) (hz : ∃ z : ℤ, r * 1000 = (z : ℚ))
    {N : ℕ} (hN : 2 ≤ N) (a : ℤ) : resOf (arithList a r N) = some r := by
  obtain ⟨M, rfl⟩ : ∃ M, N = M + 2 := ⟨N - 2, by omega⟩
  unfold resOf
  rw [show M + 2 = (M + 1) + 1 from rfl, deltas_arithList hr hz (M + 1) a,
    List.replicate_succ]
  simp [List.all_eq_true, List.mem_replicate]

lemma toFinset_insertUnique (x : ℚ) : ∀ (u : List ℚ),
    (insertUnique x u).toFinset = insert x u.toFinset := by
  intro u
  induction u with
  | nil => simp [insertUnique]
  | cons y ys ih =>
    unfold insertUnique
    split_ifs with h1 h2
    · simp
    · subst h2; simp
    · simp only [List.toFinset_cons, ih]
      rw [Finset.Insert.comm]

lemma pairwise_insertUnique (x : ℚ) : ∀ (u : List ℚ),
    u.Pairwise (· < ·) → (insertUnique x u).Pairwise (· < ·) := by
  intro u
  induction u with
  | nil => intro _; simp [insertUnique]
  | cons y ys ih =>
    intro hp
    have hy : ∀ z ∈ ys, y < z := fun z hz => List.rel_of_pairwise_cons hp hz
    unfold insertUnique
    split_ifs with h1 h2
    · refine List.Pairwise.cons ?_ hp
      intro z hz
      rcases List.mem_cons.mp hz with rfl | hzys
      · exact h1
      · exact lt_trans h1 (hy z hzys)
    · exact hp
    · refine List.Pairwise.cons ?_ (ih hp.of_cons)
      intro z hz
      have hz2 : z = x ∨ z ∈ ys := by
        have hzf : z ∈ (insertUnique x ys).toFinset := List.mem_toFinset.mpr hz
        rw [toFinset_insertUnique, Finset.mem_insert] at hzf
        rcases hzf with h | h
        · exact Or.inl h
        · exact Or.inr (List.mem_toFinset.mp h)
      rcases hz2 with rfl | hzys
      · exact lt_of_le_of_ne (not_lt.mp h1) (fun hc => h2 hc.symm)
      · exact hy z hzys

lemma npUnique_pairwise (l : List ℚ) : (npUnique l).Pairwise (· < ·) := by
  induction l with
  | nil => exact List.Pairwise.nil
  | cons x l ih => exact pairwise_insertUnique x _ ih

lemma npUnique_toFinset (l : List ℚ) : (npUnique l).toFinset = l.toFinset := by
  induction l with
  | nil => rfl
  | cons x l ih =>
    show (insertUnique x (npUnique l)).toFinset = (x :: l).toFinset
    rw [toFinset_insertUnique, ih, List.toFinset_cons]

lemma npUnique_eq {l s : List ℚ} (hfin : l.toFinset = s.toFinset)
    (hs : List.Pairwise (· < ·) s) : npUnique l = s := by
  have hu := npUnique_pairwise l
  have hnodup : s.Nodup := hs.imp (fun h => ne_of_lt h)
  have hunodup : (npUnique l).Nodup := hu.imp (fun h => ne_of_lt h)
  have hsorted : List.Sorted (· ≤ ·) s := hs.imp (fun h => le_of_lt h)
  have husorted : List.Sorted (· ≤ ·) (npUnique l) := hu.imp (fun h => le_of_lt h)
  refine List.eq_of_perm_of_sorted ?_ husorted hsorted
  refine List.perm_of_nodup_nodup_toFinset_eq hunodup hnodup ?_
  rw [npUnique_toFinset, hfin]

lemma toFinset_meshgridX (xs : List ℚ) : ∀ (ys : List ℚ), ys ≠ [] →
    ((meshgridX xs ys).flatten).toFinset = xs.toFinset := by
  intro ys
  induction ys with
  | nil => intro h; cases h rfl
  | cons y ys ih =>
    intro _
    by_cases hys : ys = []
    · subst hys; simp [meshgridX]
    · have h2 := ih hys
      simp only [meshgridX, List.map_cons, List.flatten_cons, List.toFinset_append] at h2 ⊢
      rw [h2, Finset.union_self]

lemma toFinset_meshgridY (xs : List ℚ) (hx : xs ≠ []) : ∀ (ys : List ℚ),
    ((meshgridY xs ys).flatten).toFinset = ys.toFinset := by
  intro ys
  induction ys with
  | nil => simp [meshgridY]
  | cons y ys ih =>
    simp only [meshgridY, List.map_cons, List.flatten_cons, List.toFinset_append] at ih ⊢
    rw [ih]
    have hxy : (xs.map (fun _ => y)).toFinset = {y} := by
      rw [List.map_const']
      exact List.toFinset_replicate_of_ne_zero (by simpa using hx)
    rw [hxy, List.toFinset_cons, Finset.insert_eq]

lemma ceil_int_add_half (k : ℤ) : ⌈(k : ℚ) + 1/2⌉ = k + 1 := by
  rw [add_comm, Int.ceil_add_int]
  have h : ⌈(1/2 : ℚ)⌉ = 1 := by
    rw [Int.ceil_eq_iff]
    norm_num
  rw [h]
  ring

lemma regularLats_eq {r : ℚ} {n : ℕ} (hr : 0 < r) (h90 : (n : ℚ) * r = 90) :
    npArange 90 (-90 - r / 2) (-r)
      = (List.range (2 * n + 1)).map (fun k : ℕ => 90 - (k : ℚ) * r) := by
  unfold npArange
  have hr0 : r ≠ 0 := ne_of_gt hr
  have hdiv : ((-90 - r / 2) - 90) / (-r) = 2 * (n : ℚ) + 1/2 := by
    rw [div_eq_iff (neg_ne_zero.mpr hr0)]
    linear_combination 2 * h90
  rw [hdiv]
  have hceil : ⌈2 * (n : ℚ) + 1/2⌉ = 2 * (n : ℤ) + 1 := by
    have h := ceil_int_add_half (2 * n : ℤ)
    rw [show ((2 * n : ℤ) : ℚ) = 2 * (n : ℚ) by push_cast; ring] at h
    rw [h]
  have htoNat : (⌈2 * (n : ℚ) + 1/2⌉).toNat = 2 * n + 1 := by
    rw [hceil]; omega
  rw [htoNat]
  apply List.map_congr_left
  intro k _
  ring

lemma regularLons_eq {r : ℚ} {m : ℕ} (hr : 0 < r) (hm : 1 ≤ m)
    (h360 : (m : ℚ) * r = 360) :
    npArange 0 (360 - r / 2) r = (List.range m).map (fun k : ℕ => (k : ℚ) * r) := by
  unfold npArange
  have hr0 : r ≠ 0 := ne_of_gt hr
  have hdiv : ((360 - r / 2) - 0) / r = ((m : ℚ) - 1) + 1/2 := by
    rw [div_eq_iff hr0]
    linear_combination -h360
  rw [hdiv]
  have hceil : ⌈((m : ℚ) - 1) + 1/2⌉ = (m : ℤ) := by
    have h := ceil_int_add_half ((m : ℤ) - 1)
    rw [show (((m : ℤ) - 1 : ℤ) : ℚ) = (m : ℚ) - 1 by push_cast; ring] at h
    rw [h]
    ring
  have htoNat : (⌈((m : ℚ) - 1) + 1/2⌉).toNat = m := by
    rw [hceil]; omega
  rw [htoNat]
  apply List.map_congr_left
  intro k _
  ring

lemma npUnique_lat {r : ℚ} {n : ℕ} (hr : 0 < r) (h90 : (n : ℚ) * r = 90)
    (xs : List ℚ) (hx : xs ≠ []) :
    npUnique ((meshgridY xs (npArange 90 (-90 - r / 2) (-r))).flatten)
      = arithList (-(n : ℤ)) r (2 * n + 1) := by
  apply npUnique_eq
  · rw [toFinset_meshgridY xs hx, regularLats_eq hr h90, arithList_eq_map]
    ext x
    simp only [List.mem_toFinset, List.mem_map, List.mem_range]
    constructor
    · rintro ⟨k, hk, rfl⟩
      refine ⟨2 * n - k, by omega, ?_⟩
      have hc : (-(n : ℤ) + ((2 * n - k : ℕ) : ℤ)) = (n : ℤ) - (k : ℤ) := by omega
      rw [hc]
      have hc2 : (((n : ℤ) - (k : ℤ) : ℤ) : ℚ) = (n : ℚ) - (k : ℚ) := by push_cast; ring
      rw [hc2]
      linear_combination h90
    · rintro ⟨i, hi, rfl⟩
      refine ⟨2 * n - i, by omega, ?_⟩
      have h1 : ((2 * n - i : ℕ) : ℚ) = 2 * (n : ℚ) - (i : ℚ) := by
        have h2 : ((2 * n - i : ℕ) : ℤ) = 2 * (n : ℤ) - (i : ℤ) := by omega
        exact_mod_cast h2
      rw [h1]
      have h3 : ((-(n : ℤ) + (i : ℤ) : ℤ) : ℚ) = -(n : ℚ) + (i : ℚ) := by push_cast; ring
      rw [h3]
      linear_combination (-1 : ℚ) * h90
  · exact arithList_pairwise _ hr _

lemma lt180_iff {r : ℚ} {m : ℕ} (hr : 0 < r) (h360 : (m : ℚ) * r = 360) (k : ℕ) :
    (180 : ℚ) < (k : ℚ) * r ↔ m < 2 * k := by
  have h1 : ((180 : ℚ) < (k : ℚ) * r) ↔ ((m : ℚ) * r < ((2 * k : ℕ) : ℚ) * r) := by
    rw [h360]
    push_cast
    constructor
    · intro h; nlinarith
    · intro h; nlinarith
  rw [h1, mul_lt_mul_right hr]
  exact Nat.cast_lt

lemma npUnique_lon {r : ℚ} {m : ℕ} (hr : 0 < r) (hm : 1 ≤ m) (h360 : (m : ℚ) * r = 360)
    (ys : List ℚ) (hy : ys ≠ []) :
    npUnique ((meshgridX ((npArange 0 (360 - r / 2) r).map wrapLon) ys).flatten)
      = arithList (((m / 2 : ℕ) : ℤ) + 1 - (m : ℤ)) r m := by
  obtain ⟨h, hh⟩ : ∃ h : ℕ, m / 2 = h := ⟨m / 2, rfl⟩
  rw [hh]
  apply npUnique_eq
  · rw [toFinset_meshgridX _ ys hy, regularLons_eq hr hm h360, List.map_map,
      arithList_eq_map]
    ext x
    simp only [List.mem_toFinset, List.mem_map, List.mem_range, Function.comp_apply]
    constructor
    · rintro ⟨k, hk, rfl⟩
      by_cases hkr : (180 : ℚ) < (k : ℚ) * r
      · have hmk : m < 2 * k := (lt180_iff hr h360 k).mp hkr
        refine ⟨k - h - 1, by omega, ?_⟩
        have hc : ((h : ℤ) + 1 - (m : ℤ) + ((k - h - 1 : ℕ) : ℤ))
            = (k : ℤ) - (m : ℤ) := by omega
        rw [hc]
        simp only [wrapLon, if_pos hkr]
        push_cast
        linear_combination (-1 : ℚ) * h360
      · have hmk : ¬ m < 2 * k := fun hc => hkr ((lt180_iff hr h360 k).mpr hc)
        refine ⟨k + m - h - 1, by omega, ?_⟩
        have hc : ((h : ℤ) + 1 - (m : ℤ) + ((k + m - h - 1 : ℕ) : ℤ))
            = (k : ℤ) := by omega
        rw [hc]
        simp only [wrapLon, if_neg hkr]
        push_cast
        ring
    · rintro ⟨i, hi, rfl⟩
      rcases le_or_lt (m : ℤ) ((h : ℤ) + 1 + (i : ℤ)) with hj | hj
      · refine ⟨h + 1 + i - m, by omega, ?_⟩
        have hkr : ¬ (180 : ℚ) < ((h + 1 + i - m : ℕ) : ℚ) * r := by
          rw [lt180_iff hr h360]
          omega
        simp only [wrapLon, if_neg hkr]
        have hc : ((h + 1 + i - m : ℕ) : ℤ)
            = (h : ℤ) + 1 - (m : ℤ) + (i : ℤ) := by omega
        have hc2 : ((h + 1 + i - m : ℕ) : ℚ)
            = (((h : ℤ) + 1 - (m : ℤ) + (i : ℤ) : ℤ) : ℚ) := by
          exact_mod_cast hc
        rw [hc2]
      · refine ⟨h + 1 + i, by omega, ?_⟩
        have hkr : (180 : ℚ) < ((h + 1 + i : ℕ) : ℚ) * r := by
          rw [lt180_iff hr h360]
          omega
        simp only [wrapLon, if_pos hkr]
        push_cast
        linear_combination h360
  · exact arithList_pairwise _ hr _

lemma grid_axes {rlat rlon : ℚ} {n m : ℕ} (hrlat : 0 < rlat) (hrlon : 0 < rlon)
    (_hn : 1 ≤ n) (hm : 1 ≤ m) (h90 : (n : ℚ) * rlat = 90)
    (h360 : (m : ℚ) * rlon = 360) :
    npUnique (ERA_RegularImgGrid rlat rlon).2 = arithList (-(n : ℤ)) rlat (2 * n + 1)
    ∧ npUnique (ERA_RegularImgGrid rlat rlon).1
        = arithList (((m / 2 : ℕ) : ℤ) + 1 - (m : ℤ)) rlon m := by
  have hlonne : (npArange 0 (360 - rlon / 2) rlon).map wrapLon ≠ [] := by
    intro hcon
    have hlen := congrArg List.length hcon
    rw [regularLons_eq hrlon hm h360] at hlen
    simp at hlen
    omega
  have hlatne : npArange 90 (-90 - rlat / 2) (-rlat) ≠ [] := by
    intro hcon
    have hlen := congrArg List.length hcon
    rw [regularLats_eq hrlat h90] at hlen
    simp at hlen
  exact ⟨npUnique_lat hrlat h90 _ hlonne, npUnique_lon hrlon hm h360 _ hlatne⟩

lemma get_grid_resolution_regular {rlat rlon : ℚ} {n m : ℕ} (hrlat : 0 < rlat)
    (hrlon : 0 < rlon) (hn : 1 ≤ n) (hm : 2 ≤ m) (h90 : (n : ℚ) * rlat = 90)
    (h360 : (m : ℚ) * rlon = 360) (hzlat : ∃ z : ℤ, rlat * 1000 = (z : ℚ))
    (hzlon : ∃ z : ℤ, rlon * 1000 = (z : ℚ)) :
    get_grid_resolution (ERA_RegularImgGrid rlat rlon).2
      (ERA_RegularImgGrid rlat rlon).1 = some (rlat, rlon) := by
  obtain ⟨hlat, hlon⟩ := grid_axes hrlat hrlon hn (by omega) h90 h360
  unfold get_grid_resolution
  rw [hlat, hlon, resOf_arithList hrlat hzlat (by omega) _,
    resOf_arithList hrlon hzlon hm _]

section

/- Rational arithmetic is `@[irreducible]` in Batteries; evaluating the
grid functions on concrete resolutions needs it reducible. -/
attribute [local semireducible] Rat.add Rat.mul Rat.inv Rat.sub Rat.ofScientific

/-- C3 counterexample: at `res_lat = res_lon = 60` (a positive resolution)
the round trip raises `ValueError: Grid not regular` instead of returning
`(60, 60)`: the latitude axis is `[-90, -30, 30, 90]` and the code's
`abs(abs(j) - abs(i))` deltas are `[60, 0, 60]`, which are not all equal. -/
theorem grid_roundtrip_counterexample :
    get_grid_resolution (ERA_RegularImgGrid 60 60).2 (ERA_RegularImgGrid 60 60).1
      = none := by
  decide

end

/-- C3 (amended): for positive resolutions that are integer multiples of
0.001 and divide the axis spans evenly — `n * res_lat = 90` for some integer
`n ≥ 1` and `m * res_lon = 360` for some integer `m ≥ 2` — applying
`get_grid_resolution` to the coordinates of `ERA_RegularImgGrid(res_lat,
res_lon)` returns `(res_lat, res_lon)` without raising. -/
theorem grid_roundtrip_amended (res_lat res_lon : ℚ) (hlat : 0 < res_lat)
    (hlon : 0 < res_lon) (hn : ∃ n : ℕ, 1 ≤ n ∧ (n : ℚ) * res_lat = 90)
    (hm : ∃ m : ℕ, 2 ≤ m ∧ (m : ℚ) * res_lon = 360)
    (hzlat : ∃ z : ℤ, res_lat * 1000 = (z : ℚ))
    (hzlon : ∃ z : ℤ, res_lon * 1000 = (z : ℚ)) :
    get_grid_resolution (ERA_RegularImgGrid res_lat res_lon).2
      (ERA_RegularImgGrid res_lat res_lon).1 = some (res_lat, res_lon) := by
  obtain ⟨n, hn1, hn2⟩ := hn
  obtain ⟨m, hm1, hm2⟩ := hm
  exact get_grid_resolution_regular hlat hlon hn1 hm1 hn2 hm2 hzlat hzlon

/-- Witness for the amended C3 at `res_lat = 90`, `res_lon = 180`. -/
theorem grid_roundtrip_amended_witness :
    get_grid_resolution (ERA_RegularImgGrid 90 180).2 (ERA_RegularImgGrid 90 180).1
      = some (90, 180) :=
  grid_roundtrip_amended 90 180 (by norm_num) (by norm_num)
    ⟨1, le_refl 1, by norm_num⟩ ⟨2, le_refl 2, by norm_num⟩
    ⟨90000, by norm_num⟩ ⟨180000, by norm_num⟩

/-- C8: `ERA_RegularImgGrid(0.3, 0.3)` has exactly 601 distinct latitudes and
1200 distinct longitudes, and `get_grid_resolution` on its coordinate arrays
returns `(0.3, 0.3)`. -/
theorem regular_grid_0p3_counts :
    (npUnique (ERA_RegularImgGrid 0.3 0.3).2).length = 601
    ∧ (npUnique (ERA_RegularImgGrid 0.3 0.3).1).length = 1200
    ∧ get_grid_resolution (ERA_RegularImgGrid 0.3 0.3).2
        (ERA_RegularImgGrid 0.3 0.3).1 = some (0.3, 0.3) := by
  have hr : (0 : ℚ) < 0.3 := by norm_num
  have h90 : ((300 : ℕ) : ℚ) * 0.3 = 90 := by norm_num
  have h360 : ((1200 : ℕ) : ℚ) * 0.3 = 360 := by norm_num
  obtain ⟨hlat, hlon⟩ := grid_axes hr hr (by norm_num) (by norm_num) h90 h360
  refine ⟨?_, ?_, ?_⟩
  · rw [hlat, arithList_length]
  · rw [hlon, arithList_length]
  · exact get_grid_resolution_regular hr hr (by norm_num) (by norm_num) h90 h360
      ⟨300, by norm_num⟩ ⟨300, by norm_num⟩

lemma wrap_arange_mem {r : ℚ} (hr : 0 < r) {x : ℚ}
    (hx : x ∈ (npArange 0 (360 - r / 2) r).map wrapLon) : -180 < x ∧ x ≤ 180 := by
  simp only [npArange, List.map_map, List.mem_map, List.mem_range,
    Function.comp_apply] at hx
  obtain ⟨k, hk, rfl⟩ := hx
  have hkb : (k : ℚ) * r < 360 - r / 2 := by
    have h1 : (k : ℤ) < ⌈((360 - r / 2) - 0) / r⌉ := Int.lt_toNat.mp hk
    have h2 : ((k : ℤ) : ℚ) < ((360 - r / 2) - 0) / r := by
      exact_mod_cast Int.lt_ceil.mp h1
    have h3 : (k : ℚ) * r < (360 - r / 2) - 0 := (lt_div_iff₀ hr).mp (by exact_mod_cast h2)
    linarith
  have hk0 : (0 : ℚ) ≤ (k : ℚ) * r := mul_nonneg (Nat.cast_nonneg k) hr.le
  unfold wrapLon
  split_ifs with h180
  · constructor
    · linarith
    · linarith
  · constructor
    · linarith
    · linarith [not_lt.mp h180]

section

attribute [local semireducible] Rat.add Rat.mul Rat.inv Rat.sub Rat.ofScientific

/-- C7 counterexample: `ERA_IrregularImgGrid` only subtracts 360 once, so the
input longitude 600 yields the grid longitude 240, which is not in
`(-180, 180]`; the claimed invariant fails for grids built by
`ERA_IrregularImgGrid` from unnormalized input. -/
theorem lon_range_counterexample :
    ¬ (∀ x ∈ (ERA_IrregularImgGrid [[600]] [[0]]).1, -180 < x ∧ x ≤ 180) := by
  decide

end

/-- C7 (amended): every longitude of a grid built by `ERA_RegularImgGrid`
lies in `(-180, 180]`; for `ERA_IrregularImgGrid` the same holds provided
every input longitude lies in `(-180, 540]` (in particular for the raw
`[0, 360)` coordinates this code receives) — a value above 180 is wrapped by
subtracting 360 exactly once. -/
theorem lon_range_amended :
    (∀ res_lat res_lon : ℚ, 0 < res_lon →
      ∀ x ∈ (ERA_RegularImgGrid res_lat res_lon).1, -180 < x ∧ x ≤ 180)
    ∧ (∀ lons lats : List (List ℚ),
        (∀ row ∈ lons, ∀ x ∈ row, -180 < x ∧ x ≤ 540) →
        ∀ y ∈ (ERA_IrregularImgGrid lons lats).1, -180 < y ∧ y ≤ 180) := by
  constructor
  · intro res_lat res_lon hr x hx
    apply wrap_arange_mem hr
    simp only [ERA_RegularImgGrid, meshgridX, List.mem_flatten, List.mem_map] at hx
    obtain ⟨row, ⟨_, _, rfl⟩, hxrow⟩ := hx
    exact hxrow
  · intro lons lats hb y hy
    simp only [ERA_IrregularImgGrid, ERA_IrregularImgGrid_call, List.mem_flatten,
      List.mem_map] at hy
    obtain ⟨row2, ⟨row, hrow, rfl⟩, hyrow⟩ := hy
    obtain ⟨x, hxrow, rfl⟩ := List.mem_map.mp hyrow
    obtain ⟨hx1, hx2⟩ := hb row hrow x hxrow
    unfold wrapLon
    split_ifs with h180
    · constructor
      · linarith
      · linarith
    · exact ⟨hx1, not_lt.mp h180⟩

section

attribute [local semireducible] Rat.add Rat.mul Rat.inv Rat.sub Rat.ofScientific

/-- Witness for the amended C7: the wrapped longitude `-90` of the 90-degree
regular grid lies in `(-180, 180]`. -/
theorem lon_range_amended_witness :
    (-90 : ℚ) ∈ (ERA_RegularImgGrid 90 90).1
    ∧ (-180 < (-90 : ℚ) ∧ (-90 : ℚ) ≤ 180) :=
  ⟨by decide, lon_range_amended.1 90 90 (by norm_num) (-90) (by decide)⟩

end

/-! ## Lemmas: dates and chunking -/

lemma Date.le_def {a b : Date} : a ≤ b ↔
    (a.year < b.year ∨ (a.year = b.year ∧
      (a.month < b.month ∨ (a.month = b.month ∧ a.day ≤ b.day)))) := Iff.rfl

lemma Date.le_refl (a : Date) : a ≤ a := by
  rw [Date.le_def]; omega

lemma Date.le_trans {a b c : Date} (h1 : a ≤ b) (h2 : b ≤ c) : a ≤ c := by
  rw [Date.le_def] at h1 h2 ⊢; omega

lemma daysInMonth_le_31 (y m : ℕ) : daysInMonth y m ≤ 31 := by
  unfold daysInMonth; split_ifs <;> omega

lemma daysInMonth_pos (y : ℕ) {m : ℕ} (h1 : 1 ≤ m) (h2 : m ≤ 12) :
    28 ≤ daysInMonth y m := by
  unfold daysInMonth; split_ifs <;> omega

lemma chunkEnd_of_same {s e : Date} (h : e.year = s.year ∧ e.month = s.month) :
    chunkEnd s e = e := by
  unfold chunkEnd
  rw [if_pos h]
  obtain ⟨h1, h2⟩ := h
  cases e
  simp only [Date.mk.injEq]
  exact ⟨h1.symm, h2.symm, trivial⟩

lemma chunkEnd_of_not_same {s e : Date} (h : ¬(e.year = s.year ∧ e.month = s.month)) :
    chunkEnd s e = ⟨s.year, s.month, daysInMonth s.year s.month⟩ := by
  unfold chunkEnd
  rw [if_neg h]

lemma chunkEnd_year_month (s e : Date) :
    (chunkEnd s e).year = s.year ∧ (chunkEnd s e).month = s.month := by
  unfold chunkEnd; split_ifs <;> exact ⟨rfl, rfl⟩

lemma chunkEnd_valid {s e : Date} (hs : s.Valid) (he : e.Valid) (_hse : s ≤ e) :
    (chunkEnd s e).Valid := by
  obtain ⟨hs1, hs2, hs3, hs4⟩ := hs
  obtain ⟨he1, he2, he3, he4⟩ := he
  unfold chunkEnd
  split_ifs with h
  · refine ⟨hs1, hs2, he3, ?_⟩
    rw [h.1, h.2] at he4
    exact he4
  · have hp := daysInMonth_pos s.year hs1 hs2
    refine ⟨hs1, hs2, ?_, Nat.le_refl _⟩
    dsimp only
    omega

lemma le_chunkEnd {s e : Date} (hs : s.Valid) (hse : s ≤ e) : s ≤ chunkEnd s e := by
  obtain ⟨hs1, hs2, hs3, hs4⟩ := hs
  rw [Date.le_def] at hse
  unfold chunkEnd
  split_ifs with h
  · rw [Date.le_def]
    dsimp only
    omega
  · rw [Date.le_def]
    dsimp only
    omega

lemma chunkEnd_le_e {s e : Date} (hse : s ≤ e) : chunkEnd s e ≤ e := by
  rw [Date.le_def] at hse
  unfold chunkEnd
  split_ifs with h
  · rw [Date.le_def]
    dsimp only
    omega
  · rw [Date.le_def]
    dsimp only
    omega

lemma nextDay_valid {d : Date} (hd : d.Valid) : (nextDay d).Valid := by
  obtain ⟨hd1, hd2, hd3, hd4⟩ := hd
  unfold nextDay
  split_ifs with h1 h2
  · refine ⟨?_, ?_, ?_, ?_⟩ <;> dsimp only <;> omega
  · have hp := daysInMonth_pos d.year (m := d.month + 1) (by omega) (by omega)
    refine ⟨?_, ?_, ?_, ?_⟩ <;> dsimp only <;> omega
  · have hp := daysInMonth_pos (d.year + 1) (m := 1) (by omega) (by omega)
    refine ⟨?_, ?_, ?_, ?_⟩ <;> dsimp only <;> omega

lemma Date.le_nextDay (d : Date) : d ≤ nextDay d := by
  unfold nextDay
  split_ifs with h1 h2 <;> rw [Date.le_def] <;> dsimp only <;> omega

lemma nextDay_not_le (d : Date) : ¬ (nextDay d ≤ d) := by
  unfold nextDay
  split_ifs with h1 h2 <;> rw [Date.le_def] <;> dsimp only <;> omega

lemma next_monthEnd_le {s x : Date} (hs : s.Valid) (hx : x.Valid)
    (h : ¬ (x ≤ ⟨s.year, s.month, daysInMonth s.year s.month⟩)) :
    nextDay ⟨s.year, s.month, daysInMonth s.year s.month⟩ ≤ x := by
  obtain ⟨hs1, hs2, hs3, hs4⟩ := hs
  obtain ⟨hx1, hx2, hx3, hx4⟩ := hx
  rw [Date.le_def] at h
  dsimp only at h
  by_cases hxy : x.year = s.year ∧ x.month = s.month
  · exfalso
    rw [hxy.1, hxy.2] at hx4
    omega
  · unfold nextDay
    dsimp only
    rw [if_neg (lt_irrefl _)]
    split_ifs with h2
    · rw [Date.le_def]
      dsimp only
      omega
    · rw [Date.le_def]
      dsimp only
      omega

lemma dateOrd_mono {a b : Date} (ha : a.Valid) (hb : b.Valid) (h : a ≤ b) :
    dateOrd a ≤ dateOrd b := by
  obtain ⟨ha1, ha2, ha3, ha4⟩ := ha
  obtain ⟨hb1, hb2, hb3, hb4⟩ := hb
  have ha31 : a.day ≤ 31 := ha4.trans (daysInMonth_le_31 _ _)
  rw [Date.le_def] at h
  unfold dateOrd
  omega

lemma dateOrd_lt_next {s e : Date} (hs : s.Valid) (he : e.Valid) (hse : s ≤ e) :
    dateOrd s < dateOrd (nextDay (chunkEnd s e)) := by
  have h1 := (chunkEnd_year_month s e).1
  have h2 := (chunkEnd_year_month s e).2
  have hcv := chunkEnd_valid hs he hse
  have hd31 : (chunkEnd s e).day ≤ 31 := hcv.2.2.2.trans (daysInMonth_le_31 _ _)
  have hsd : s.day ≤ (chunkEnd s e).day := by
    have hle := le_chunkEnd hs hse
    rw [Date.le_def] at hle
    omega
  have hsm : s.month ≤ 12 := hs.2.1
  unfold nextDay dateOrd
  split_ifs with hA hB <;> dsimp only <;> omega

lemma countChunks_cons (x a b : Date) (l : List (Date × Date)) :
    countChunks x ((a, b) :: l)
      = countChunks x l + (if a ≤ x ∧ x ≤ b then 1 else 0) := by
  simp [countChunks, List.countP_cons]

lemma chunksGo_sound : ∀ (fuel : ℕ) (s e : Date), s.Valid → e.Valid →
    ∀ c ∈ chunksGo fuel s e,
      c.1.Valid ∧ c.2.Valid ∧ s ≤ c.1 ∧ c.1 ≤ c.2 ∧ c.2 ≤ e
      ∧ c.1.year = c.2.year ∧ c.1.month = c.2.month
      ∧ (c.2 = e ∨ c.2.day = daysInMonth c.2.year c.2.month) := by
  intro fuel
  induction fuel with
  | zero => intro s e _ _ c hc; simp [chunksGo] at hc
  | succ fuel ih =>
    intro s e hs he c hc
    rw [chunksGo] at hc
    split_ifs at hc with hg
    · obtain ⟨hs', he', hse⟩ := hg
      rcases List.mem_cons.mp hc with rfl | htail
      · refine ⟨hs, chunkEnd_valid hs he hse, Date.le_refl s, le_chunkEnd hs hse,
          chunkEnd_le_e hse, (chunkEnd_year_month s e).1.symm,
          (chunkEnd_year_month s e).2.symm, ?_⟩
        by_cases hm : e.year = s.year ∧ e.month = s.month
        · exact Or.inl (chunkEnd_of_same hm)
        · right
          rw [chunkEnd_of_not_same hm]
      · have h1 := ih (nextDay (chunkEnd s e)) e
          (nextDay_valid (chunkEnd_valid hs he hse)) he c htail
        obtain ⟨a1, a2, a3, a4, a5, a6, a7, a8⟩ := h1
        exact ⟨a1, a2,
          Date.le_trans (Date.le_trans (le_chunkEnd hs hse) (Date.le_nextDay _)) a3,
          a4, a5, a6, a7, a8⟩
    · simp at hc

lemma chunksGo_chain : ∀ (fuel : ℕ) (s e : Date),
    List.Chain' (fun c c2 => c2.1 = nextDay c.2) (chunksGo fuel s e) := by
  intro fuel
  induction fuel with
  | zero => intro s e; simp [chunksGo]
  | succ fuel ih =>
    intro s e
    rw [chunksGo]
    split_ifs with hg
    · rw [List.chain'_cons']
      refine ⟨?_, ih _ _⟩
      intro b hb
      cases fuel with
      | zero => simp [chunksGo] at hb
      | succ fuel2 =>
        rw [chunksGo] at hb
        split_ifs at hb with hg2
        · simp at hb
          rw [← hb]
        · simp at hb
    · simp

lemma chunksGo_count : ∀ (fuel : ℕ) (s e : Date),
    dateOrd e + 1 - dateOrd s ≤ fuel → s.Valid → e.Valid → s ≤ e →
    ∀ x : Date, x.Valid → s ≤ x → x ≤ e → countChunks x (chunksGo fuel s e) = 1 := by
  intro fuel
  induction fuel with
  | zero =>
    intro s e hfuel hs he hse x _ _ _
    exfalso
    have := dateOrd_mono hs he hse
    omega
  | succ fuel ih =>
    intro s e hfuel hs he hse x hx hsx hxe
    rw [chunksGo, if_pos ⟨hs, he, hse⟩, countChunks_cons]
    by_cases hm : e.year = s.year ∧ e.month = s.month
    · rw [chunkEnd_of_same hm]
      have htail : countChunks x (chunksGo fuel (nextDay e) e) = 0 := by
        unfold countChunks
        apply List.countP_eq_zero.mpr
        intro c hc
        exfalso
        have hsound := chunksGo_sound fuel (nextDay e) e (nextDay_valid he) he c hc
        exact nextDay_not_le e
          (Date.le_trans (Date.le_trans hsound.2.2.1 hsound.2.2.2.1) hsound.2.2.2.2.1)
      rw [htail, if_pos ⟨hsx, hxe⟩]
    · rw [chunkEnd_of_not_same hm]
      have hmv : (⟨s.year, s.month, daysInMonth s.year s.month⟩ : Date).Valid := by
        have hcv := chunkEnd_valid hs he hse
        rw [chunkEnd_of_not_same hm] at hcv
        exact hcv
      by_cases hxc : x ≤ (⟨s.year, s.month, daysInMonth s.year s.month⟩ : Date)
      · have htail : countChunks x
            (chunksGo fuel (nextDay ⟨s.year, s.month, daysInMonth s.year s.month⟩) e)
            = 0 := by
          unfold countChunks
          apply List.countP_eq_zero.mpr
          intro c hc
          have hsound := chunksGo_sound fuel _ e (nextDay_valid hmv) he c hc
          simp only [decide_eq_true_eq]
          rintro ⟨hc1, _⟩
          exact nextDay_not_le _ (Date.le_trans (Date.le_trans hsound.2.2.1 hc1) hxc)
        rw [htail, if_pos ⟨hsx, hxc⟩]
      · have hnext : nextDay (⟨s.year, s.month, daysInMonth s.year s.month⟩ : Date) ≤ x :=
          next_monthEnd_le hs hx hxc
        have hmeas : dateOrd e + 1
            - dateOrd (nextDay ⟨s.year, s.month, daysInMonth s.year s.month⟩) ≤ fuel := by
          have hlt := dateOrd_lt_next hs he hse
          rw [chunkEnd_of_not_same hm] at hlt
          have := dateOrd_mono hs he hse
          omega
        have htail := ih (nextDay ⟨s.year, s.month, daysInMonth s.year s.month⟩) e
          hmeas (nextDay_valid hmv) he (Date.le_trans hnext hxe) x hx hnext hxe
        rw [htail, if_neg (fun hc => hxc hc.2)]

/-- C1: for every valid `startdate <= enddate`, the chunking loop of
`download_and_move` partitions the day range: (a) every day of the range lies
in exactly one chunk, (b) no chunk crosses a calendar-month boundary — each
chunk stays within one month and ends at the month's last day or at
`enddate` — and (c) the chunks are contiguous in ascending order (each chunk
starts the day after the previous one ends); in particular 2017-01-15 to
2017-03-10 gives exactly the chunks [01-15, 01-31], [02-01, 02-28],
[03-01, 03-10]. -/
theorem era5_chunking_partition (s e : Date) (hs : s.Valid) (he : e.Valid)
    (hse : s ≤ e) :
    (∀ x : Date, x.Valid → s ≤ x → x ≤ e → countChunks x (chunks s e) = 1)
    ∧ (∀ c ∈ chunks s e, c.1 ≤ c.2 ∧ c.1.year = c.2.year ∧ c.1.month = c.2.month
        ∧ (c.2 = e ∨ c.2.day = daysInMonth c.2.year c.2.month))
    ∧ List.Chain' (fun c c2 => c2.1 = nextDay c.2) (chunks s e)
    ∧ chunks ⟨2017, 1, 15⟩ ⟨2017, 3, 10⟩
        = [(⟨2017, 1, 15⟩, ⟨2017, 1, 31⟩), (⟨2017, 2, 1⟩, ⟨2017, 2, 28⟩),
           (⟨2017, 3, 1⟩, ⟨2017, 3, 10⟩)] := by
  refine ⟨?_, ?_, chunksGo_chain _ s e, by decide⟩
  · intro x hx h1 h2
    exact chunksGo_count _ s e (Nat.le_refl _) hs he hse x hx h1 h2
  · intro c hc
    have h := chunksGo_sound _ s e hs he c hc
    exact ⟨h.2.2.2.1, h.2.2.2.2.2.1, h.2.2.2.2.2.2.1, h.2.2.2.2.2.2.2⟩

/-- Witness for C1: the concrete 2017-01-15 to 2017-03-10 chunking. -/
theorem era5_chunking_partition_witness :
    chunks ⟨2017, 1, 15⟩ ⟨2017, 3, 10⟩
      = [(⟨2017, 1, 15⟩, ⟨2017, 1, 31⟩), (⟨2017, 2, 1⟩, ⟨2017, 2, 28⟩),
         (⟨2017, 3, 1⟩, ⟨2017, 3, 10⟩)] :=
  (era5_chunking_partition ⟨2017, 1, 15⟩ ⟨2017, 3, 10⟩ (by decide) (by decide)
    (by decide)).2.2.2
